import Mathlib

/-!
Verification of the turn-merging engine of `conversation-parser`.

The development shallowly embeds the two pipelines of the program:
the tagged quasi-JSON pipeline (`src/json_no_timestamps.rs`) and the
timestamped line pipeline (`src/main.rs`).  Strings are embedded as
`List Char`; every Rust function in scope is translated to a Lean
function of the same name (module-level duplicates are disambiguated
with a suffix).  Standard-library behaviour that the program relies on
(`str::trim`, `str::lines`, `char::to_lowercase`, `chrono` parsing,
the regex search) is modelled from its documented semantics.
-/

/-- Strings of the program are embedded as lists of characters. -/
abbrev Str := List Char

/-- Models Rust `char::is_whitespace` for the character set exercised by the
program (ASCII whitespace; the full Unicode table is not reproduced). -/
def isWhite (c : Char) : Bool := c.isWhitespace

/-- Models `str::trim_start`: drop leading whitespace. -/
def trimLeft (s : Str) : Str := s.dropWhile isWhite

/-- Models `str::trim_end`: drop trailing whitespace. -/
def trimEnd (s : Str) : Str := (s.reverse.dropWhile isWhite).reverse

/-- Models `str::trim`: drop whitespace from both ends. -/
def rustTrim (s : Str) : Str := trimEnd (trimLeft s)

/-- From `json_no_timestamps.rs`, `parse_quoted`: scan a quoted string
starting right after the opening quote; return the unescaped content and
the remaining input after the closing quote, or `none` when the input ends
before an unescaped closing quote.  The Rust `match` on the next character
becomes nested conditionals. -/
def parse_quoted : Str → Option (Str × Str)
  | [] => none
  | c :: rest =>
    if c = '\\' then
      match rest with
      | [] => none
      | e :: r2 =>
        match parse_quoted r2 with
        | none => none
        | some (res, rem) =>
          some ((if e = '"' then ['"']
                 else if e = 'n' then ['\n']
                 else if e = 't' then ['\t']
                 else if e = '\\' then ['\\']
                 else ['\\', e]) ++ res, rem)
    else if c = '"' then some ([], rest)
    else
      match parse_quoted rest with
      | none => none
      | some (res, rem) => some (c :: res, rem)

/-- Models `str::strip_prefix` of a fixed key: strip the first argument from
the front of the second, or fail. -/
def stripTag : Str → Str → Option Str
  | [], s => some s
  | _ :: _, [] => none
  | t :: ts, c :: cs => if t = c then stripTag ts cs else none

/-- From `parse_entries`: the ordered cascade of key checks on a trimmed
line; `true` marks a `speaker` key, `false` a `text` key. -/
def keyTag (trimmed : Str) : Option (Bool × Str) :=
  match stripTag (("speaker:").data) trimmed with
  | some rest => some (true, rest)
  | none =>
    match stripTag (("\"speaker\":").data) trimmed with
    | some rest => some (true, rest)
    | none =>
      match stripTag (("text:").data) trimmed with
      | some rest => some (false, rest)
      | none =>
        match stripTag (("\"text\":").data) trimmed with
        | some rest => some (false, rest)
        | none => none

/-- From `json_no_timestamps.rs`: one extracted (speaker, text) pair. -/
structure Entry where
  speaker : Str
  text : Str
deriving DecidableEq

/-- Splits a string at every newline character (plain split, keeping an
empty final segment). -/
def splitOnNl : Str → List Str
  | [] => [[]]
  | c :: rest =>
    if c = '\n' then [] :: splitOnNl rest
    else
      match splitOnNl rest with
      | [] => [[c]]
      | l :: ls => (c :: l) :: ls

/-- Drops a single trailing carriage return, as `str::lines` does for a
segment terminated by a newline. -/
def stripTrailCr (l : Str) : Str :=
  match l.getLast? with
  | some c => if c = '\r' then l.dropLast else l
  | none => l

/-- Models Rust `str::lines`: split at newlines, strip a carriage return
before each newline, and do not produce a final empty line for input that
ends with a newline. -/
def rustLines (s : Str) : List Str :=
  match s with
  | [] => []
  | _ =>
    let segs := splitOnNl s
    let core := (segs.dropLast).map stripTrailCr
    if s.getLast? = some '\n' then core else core ++ [segs.getLastD []]

/-- From `parse_entries`: the per-line action on the extractor state
(pending speaker, entries emitted so far). -/
def procLine (st : Option Str × List Entry) (line : Str) : Option Str × List Entry :=
  match keyTag (rustTrim line) with
  | none => st
  | some (isSpeaker, rest) =>
    match rustTrim rest with
    | '"' :: rest2 =>
      match parse_quoted rest2 with
      | none => st
      | some (value, _) =>
        if isSpeaker then (some value, st.2)
        else
          match st.1 with
          | some sp => (none, st.2 ++ [⟨sp, value⟩])
          | none => (none, st.2)
    | _ => st

/-- From `json_no_timestamps.rs`, `parse_entries`: scan the input line by
line, pairing each `text` value with the most recently seen `speaker`
value. -/
def parse_entries (input : Str) : List Entry :=
  ((rustLines input).foldl procLine (none, [])).2

/-- Models Rust `char::to_lowercase` collected to a string: ASCII
lowering, plus the dotted capital I as the representative case whose
lowering expands to two characters; other characters map to themselves. -/
def charLowerList (c : Char) : List Char :=
  if c = Char.ofNat 304 then [Char.ofNat 105, Char.ofNat 775] else [c.toLower]

/-- Models Rust `char::to_uppercase` collected to a string: ASCII raising,
plus the sharp s as the representative case whose uppercasing expands to
two characters; other characters map to themselves. -/
def charUpperList (c : Char) : List Char :=
  if c = Char.ofNat 223 then ['S', 'S'] else [c.toUpper]

/-- From `json_no_timestamps.rs`, `make_lowercase_first`: lowercase the
first character (the expansion may be several characters), keep the rest. -/
def make_lowercase_first : Str → Str
  | [] => []
  | c :: rest => charLowerList c ++ rest

/-- From `json_no_timestamps.rs`, `make_uppercase_first`: uppercase the
first character (the expansion may be several characters), keep the rest. -/
def make_uppercase_first : Str → Str
  | [] => []
  | c :: rest => charUpperList c ++ rest

/-- From `merge_entries`: the action of one incoming entry on the merged
list (merge into the last entry when the speakers coincide, push
otherwise). -/
def mergeStep (merged : List Entry) (entry : Entry) : List Entry :=
  match merged.getLast? with
  | some last =>
    if last.speaker = entry.speaker then
      merged.dropLast ++
        [⟨last.speaker,
          last.text ++ [' '] ++
            (if (trimEnd last.text).getLast? = some '.'
             then make_uppercase_first entry.text
             else make_lowercase_first entry.text)⟩]
    else merged ++ [entry]
  | none => merged ++ [entry]

/-- From `json_no_timestamps.rs`, `merge_entries`: fold consecutive
same-speaker entries into single entries. -/
def merge_entries (entries : List Entry) : List Entry :=
  entries.foldl mergeStep []

/-- Replaces every occurrence of a character by a replacement string. -/
def replaceChar (c : Char) (r : Str) (s : Str) : Str :=
  s.foldr (fun x acc => (if x = c then r else [x]) ++ acc) []

/-- From `json_no_timestamps.rs`, `escape_md`: escape pipes, then turn
newlines into spaces. -/
def escape_md (s : Str) : Str :=
  replaceChar '\n' [' '] (replaceChar '|' ['\\', '|'] s)

/-- From `json_no_timestamps.rs`, `to_markdown_table` (tagged renderer):
header, separator, one escaped row per entry. -/
def to_markdown_table_tagged (entries : List Entry) : Str :=
  (("| Speaker | Text |\n|---------|------|\n")).data ++
    entries.foldl
      (fun acc e =>
        acc ++ (("| ")).data ++ escape_md e.speaker ++ ((" | ")).data ++
          escape_md e.text ++ ((" |\n")).data)
      []

/-- From `json_no_timestamps.rs`, `json_to_md`: the table text the tagged
run writes to standard output (the two unconditional diagnostic lines it
also prints are not table text and are left out). -/
def run_tagged (input : Str) : Str :=
  to_markdown_table_tagged (merge_entries (parse_entries input))

/-- From `main.rs`: a parsed timestamp, modelling a `chrono` naive
date-time as its six numeric fields. -/
structure Ts where
  year : Nat
  month : Nat
  day : Nat
  hour : Nat
  minute : Nat
  second : Nat
deriving DecidableEq

/-- From `main.rs`: one merged conversation turn. -/
structure Conversation where
  start_time : Ts
  end_time : Option Ts
  name : Str
  message : Str
deriving DecidableEq

/-- One extracted (timestamp, identity, payload) record, before merging. -/
structure RawRecord where
  ts : Ts
  name : Str
  message : Str
deriving DecidableEq

/-- Reads exactly the given number of decimal digits, accumulating their
value; fails on a non-digit or on running out of input. -/
def readNumAux (acc : Nat) : Nat → Str → Option (Nat × Str)
  | 0, s => some (acc, s)
  | _ + 1, [] => none
  | n + 1, c :: rest =>
    if c.isDigit then readNumAux (acc * 10 + (c.toNat - 48)) n rest else none

/-- Consumes one expected literal character. -/
def scanChar (ch : Char) : Str → Option Str
  | [] => none
  | c :: rest => if c = ch then some rest else none

/-- Gregorian leap-year test. -/
def isLeapYear (y : Nat) : Bool :=
  (y % 4 = 0 && y % 100 ≠ 0) || y % 400 = 0

/-- Number of days of a month (months counted from 1). -/
def daysInMonth (y m : Nat) : Nat :=
  if m = 2 then (if isLeapYear y then 29 else 28)
  else if m = 4 || m = 6 || m = 9 || m = 11 then 30
  else 31

/-- Models `main.rs` `parse_timestamp`, i.e. chrono
`NaiveDateTime::parse_from_str` with format string `%Y-%m-%dT%H:%M:%S`:
fixed-width numeric fields with literal separators, the whole input
consumed, and the field values valid for a calendar date-time (a second
of 60 is accepted as a leap second). -/
def parse_timestamp (s : Str) : Option Ts := do
  let (y, s1) ← readNumAux 0 4 s
  let s2 ← scanChar '-' s1
  let (mo, s3) ← readNumAux 0 2 s2
  let s4 ← scanChar '-' s3
  let (d, s5) ← readNumAux 0 2 s4
  let s6 ← scanChar 'T' s5
  let (h, s7) ← readNumAux 0 2 s6
  let s8 ← scanChar ':' s7
  let (mi, s9) ← readNumAux 0 2 s8
  let s10 ← scanChar ':' s9
  let (se, s11) ← readNumAux 0 2 s10
  if s11 = [] ∧ 1 ≤ mo ∧ mo ≤ 12 ∧ 1 ≤ d ∧ d ≤ daysInMonth y mo ∧
      h ≤ 23 ∧ mi ≤ 59 ∧ se ≤ 60 then
    some ⟨y, mo, d, h, mi, se⟩
  else none

/-- Consumes exactly the given number of digit characters, returning them
and the rest. -/
def scanDigits : Nat → Str → Option (Str × Str)
  | 0, s => some ([], s)
  | _ + 1, [] => none
  | n + 1, c :: rest =>
    if c.isDigit then
      match scanDigits n rest with
      | none => none
      | some (ds, s2) => some (c :: ds, s2)
    else none

/-- Matches the timestamp part of `MSG_REGEX`
(`\d4-\d2-\d2T\d2:\d2:\d2` with the counts written out), returning the
matched text and the rest. -/
def tsShape (s : Str) : Option (Str × Str) := do
  let (d1, s1) ← scanDigits 4 s
  let s2 ← scanChar '-' s1
  let (d2, s3) ← scanDigits 2 s2
  let s4 ← scanChar '-' s3
  let (d3, s5) ← scanDigits 2 s4
  let s6 ← scanChar 'T' s5
  let (d4, s7) ← scanDigits 2 s6
  let s8 ← scanChar ':' s7
  let (d5, s9) ← scanDigits 2 s8
  let s10 ← scanChar ':' s9
  let (d6, s11) ← scanDigits 2 s10
  return (d1 ++ ['-'] ++ d2 ++ ['-'] ++ d3 ++ ['T'] ++ d4 ++ [':'] ++ d5 ++ [':'] ++ d6, s11)

/-- The greedy `(.+)` tail of `MSG_REGEX`: the maximal run of
non-newline characters. -/
def msgTail (s : Str) : Str := s.takeWhile (fun c => c != '\n')

/-- After a candidate identity, `MSG_REGEX` requires the literal `: `
followed by at least one non-newline character; the greedy message group
takes the maximal run. -/
def restMatch (s : Str) : Option Str :=
  match s with
  | c1 :: c2 :: rest =>
    if c1 = ':' ∧ c2 = ' ' then
      if msgTail rest = [] then none else some (msgTail rest)
    else none
  | _ => none

/-- The lazy `(.+?)` identity group of `MSG_REGEX`: the shortest
non-empty run of non-newline characters after which `: ` and a non-empty
message match. -/
def nameSplit : Str → Option (Str × Str)
  | [] => none
  | c :: rest =>
    if c = '\n' then none
    else
      match restMatch rest with
      | some msg => some ([c], msg)
      | none =>
        match nameSplit rest with
        | some (nm, msg) => some (c :: nm, msg)
        | none => none

/-- A full `MSG_REGEX` match anchored at the start of the given text. -/
def tryMatchAt (s : Str) : Option (Str × Str × Str) :=
  match tsShape s with
  | none => none
  | some (ts, rest) =>
    match rest with
    | ' ' :: '-' :: ' ' :: rest2 =>
      match nameSplit rest2 with
      | some (nm, msg) => some (ts, nm, msg)
      | none => none
    | _ => none

/-- Leftmost search of `MSG_REGEX`: try each start position from the
left. -/
def searchMatch : Str → Option (Str × Str × Str)
  | [] => none
  | c :: rest =>
    match tryMatchAt (c :: rest) with
    | some r => some r
    | none => searchMatch rest

/-- From `main.rs`, `parse_message`: search `MSG_REGEX` on the trimmed
line, capturing timestamp text, identity and payload. -/
def parse_message (input : Str) : Option (Str × Str × Str) :=
  searchMatch (rustTrim input)

/-- From `main.rs`, `to_lowercase_first`: lowercase the first character
(the expansion may be several characters), keep the rest. -/
def to_lowercase_first : Str → Str
  | [] => []
  | c :: rest => charLowerList c ++ rest

/-- The record extraction pass of `parse_conversations`: per line, a
regex match followed by timestamp parsing; lines failing either are
skipped. -/
def extractRecords (ls : List Str) : List RawRecord :=
  ls.filterMap (fun line =>
    match parse_message line with
    | none => none
    | some (t, nm, msg) =>
      match parse_timestamp t with
      | none => none
      | some ts => some ⟨ts, nm, msg⟩)

/-- From `parse_conversations`: the action of one record on the fold
state (emitted conversations, current open conversation). -/
def convStep (st : List Conversation × Option Conversation) (r : RawRecord) :
    List Conversation × Option Conversation :=
  match st.2 with
  | some prev =>
    if prev.name = r.name then
      (st.1, some { prev with
        message := prev.message ++ [' '] ++
          (if (rustTrim prev.message).getLast? = some '.'
           then r.message
           else to_lowercase_first r.message) })
    else
      (st.1 ++ [{ prev with end_time := some r.ts }],
       some ⟨r.ts, none, r.name, r.message⟩)
  | none => (st.1, some ⟨r.ts, none, r.name, r.message⟩)

/-- The final flush of `parse_conversations`: push the remaining current
conversation, if any. -/
def finishConv (st : List Conversation × Option Conversation) : List Conversation :=
  match st.2 with
  | some last => st.1 ++ [last]
  | none => st.1

/-- The merge loop of `parse_conversations` over extracted records. -/
def buildConversations (rs : List RawRecord) : List Conversation :=
  finishConv (rs.foldl convStep ([], none))

/-- From `main.rs`, `parse_conversations`: the whole timestamped
pipeline on the list of input lines (file I/O is the excluded
collaborator; the per-line extraction and the stateful merge are split
into two passes, which is equivalent since extraction is stateless). -/
def parse_conversations (ls : List Str) : List Conversation :=
  buildConversations (extractRecords ls)

/-- Decimal digits of a natural number. -/
def natToStr (n : Nat) : Str := (Nat.repr n).data

/-- Zero-pad to two digits, as chrono `%m`, `%d`, `%H`, `%M`, `%S`
render. -/
def pad2 (n : Nat) : Str := if n < 10 then '0' :: natToStr n else natToStr n

/-- Zero-pad to four digits, as chrono `%Y` renders. -/
def pad4 (n : Nat) : Str :=
  if n < 10 then ['0', '0', '0'] ++ natToStr n
  else if n < 100 then ['0', '0'] ++ natToStr n
  else if n < 1000 then ['0'] ++ natToStr n
  else natToStr n

/-- Renders a timestamp in the fixed `%Y-%m-%dT%H:%M:%S` format. -/
def formatTs (t : Ts) : Str :=
  pad4 t.year ++ ['-'] ++ pad2 t.month ++ ['-'] ++ pad2 t.day ++ ['T'] ++
    pad2 t.hour ++ [':'] ++ pad2 t.minute ++ [':'] ++ pad2 t.second

/-- From `main.rs`, `to_markdown_table` (timestamped renderer,
`to_markdown_table` in the source): header, separator, one unescaped row
per conversation. -/
def to_markdown_table_ts (cs : List Conversation) : Str :=
  (("| Start Time | Name | Message |\n|------------|------|--------|\n")).data ++
    cs.foldl
      (fun acc c =>
        acc ++ (("| ")).data ++ formatTs c.start_time ++ ((" | ")).data ++
          c.name ++ ((" | ")).data ++ c.message ++ ((" |\n")).data)
      []

/-- Observable outcome of a timestamped run: the table text written to
standard output, if any, and whether the informational empty-result
message was reported. -/
structure RunResult where
  stdoutTable : Option Str
  infoEmpty : Bool
deriving DecidableEq

/-- From `main.rs`, `main` (timestamped branch): report and emit no
table when no conversations were found, otherwise print the rendered
table. -/
def run_timestamped (ls : List Str) : RunResult :=
  let cs := parse_conversations ls
  if cs = [] then ⟨none, true⟩ else ⟨some (to_markdown_table_ts cs), false⟩

/-- Last element of a list extended on the right by a non-empty list. -/
theorem getLast_app_right {α : Type} (a : List α) {b : List α} (h : b ≠ []) :
    (a ++ b).getLast? = b.getLast? := by
  rcases List.eq_nil_or_concat b with rfl | ⟨ys, y, rfl⟩
  · exact absurd rfl h
  · rw [List.concat_eq_append, ← List.append_assoc, List.getLast?_concat,
      List.getLast?_concat]

/-- An element named by `getLast?` is a member. -/
theorem mem_of_getLast {α : Type} {l : List α} {c : α} (h : l.getLast? = some c) :
    c ∈ l := by
  rcases List.eq_nil_or_concat l with rfl | ⟨ys, y, rfl⟩
  · simp at h
  · rw [List.concat_eq_append, List.getLast?_concat] at h
    cases h
    simp

/-- A list whose `getLast?` is known decomposes as its front and that
element. -/
theorem decompose_getLast {α : Type} {l : List α} {c : α} (h : l.getLast? = some c) :
    l = l.dropLast ++ [c] := by
  rcases List.eq_nil_or_concat l with rfl | ⟨ys, y, rfl⟩
  · simp at h
  · rw [List.concat_eq_append, List.getLast?_concat] at h
    cases h
    rw [List.concat_eq_append, List.dropLast_concat]

/-- Dropping over an append whose left part is not dropped entirely. -/
theorem dropWhile_app_ne {α : Type} (p : α → Bool) {a : List α}
    (h : a.dropWhile p ≠ []) (b : List α) :
    (a ++ b).dropWhile p = a.dropWhile p ++ b := by
  induction a with
  | nil => simp at h
  | cons x xs ih =>
    by_cases hx : p x
    · have h2 : xs.dropWhile p ≠ [] := by
        rwa [List.dropWhile_cons, if_pos hx] at h
      rw [List.cons_append, List.dropWhile_cons, if_pos hx, ih h2,
        List.dropWhile_cons, if_pos hx]
    · rw [List.cons_append, List.dropWhile_cons, if_neg hx,
        List.dropWhile_cons, if_neg hx, List.cons_append]

/-- Dropping over an append that ends in an element stopping the
drop. -/
theorem dropWhile_app_stop {α : Type} (p : α → Bool) {ch : α} (hch : p ch = false)
    (x rest : List α) :
    (x ++ ch :: rest).dropWhile p = x.dropWhile p ++ ch :: rest := by
  induction x with
  | nil => simp [List.dropWhile_cons, hch]
  | cons a xs ih =>
    by_cases ha : p a <;> simp [List.dropWhile_cons, ha, ih]

/-- Dropping while a test holds is idempotent. -/
theorem dropWhile_idem {α : Type} (p : α → Bool) (l : List α) :
    (l.dropWhile p).dropWhile p = l.dropWhile p := by
  induction l with
  | nil => rfl
  | cons x xs ih =>
    by_cases hx : p x <;> simp [List.dropWhile_cons, hx, ih]

/-- The head surviving a `dropWhile` fails the test. -/
theorem dropWhile_head {α : Type} {p : α → Bool} {l : List α} {c : α} {t : List α}
    (h : l.dropWhile p = c :: t) : p c = false := by
  induction l with
  | nil => simp at h
  | cons x xs ih =>
    by_cases hx : p x
    · rw [List.dropWhile_cons, if_pos hx] at h
      exact ih h
    · rw [List.dropWhile_cons, if_neg hx] at h
      cases h
      simpa using hx

/-- Trimming the end is empty on the empty string. -/
theorem trimEnd_nil : trimEnd [] = [] := rfl

/-- Trimming the end stops at a non-white character. -/
theorem trimEnd_app_stop {ch : Char} (h2 : isWhite ch = false) (f b : Str) :
    trimEnd (f ++ ch :: b) = f ++ ch :: trimEnd b := by
  simp [trimEnd, List.reverse_append, dropWhile_app_stop isWhite h2]

/-- Trimming the end distributes over an append whose left part ends in
a non-white character. -/
theorem trimEnd_app_left {a : Str} {ch : Char} (h1 : a.getLast? = some ch)
    (h2 : isWhite ch = false) (b : Str) : trimEnd (a ++ b) = a ++ trimEnd b := by
  rw [decompose_getLast h1, List.append_assoc, List.singleton_append,
    trimEnd_app_stop h2]
  simp

/-- Trimming the end distributes over an append whose right part does not
trim to nothing. -/
theorem trimEnd_app_right {b : Str} (h : trimEnd b ≠ []) (a : Str) :
    trimEnd (a ++ b) = a ++ trimEnd b := by
  have hb : b.reverse.dropWhile isWhite ≠ [] := by
    intro hh
    exact h (by simp [trimEnd, hh])
  rw [trimEnd, List.reverse_append, dropWhile_app_ne isWhite hb,
    List.reverse_append, List.reverse_reverse, trimEnd]

/-- A string ending in a non-white character is fixed by `trimEnd`. -/
theorem trimEnd_fix {a : Str} {ch : Char} (h1 : a.getLast? = some ch)
    (h2 : isWhite ch = false) : trimEnd a = a := by
  have h3 := trimEnd_app_left h1 h2 []
  simpa [trimEnd_nil] using h3

/-- An all-white string trims at the end to nothing. -/
theorem trimEnd_eq_nil {l : Str} (h : ∀ x ∈ l, isWhite x = true) : trimEnd l = [] := by
  rw [trimEnd, List.dropWhile_eq_nil_iff.mpr (fun x hx => h x (by simpa using hx))]
  rfl

/-- A string containing a non-white character does not trim at the end to
nothing. -/
theorem trimEnd_ne {t : Str} {c : Char} (hc : c ∈ t) (hw : isWhite c = false) :
    trimEnd t ≠ [] := by
  intro h
  have h2 : t.reverse.dropWhile isWhite = [] := by
    have h3 := congrArg List.reverse h
    simpa [trimEnd] using h3
  rw [List.dropWhile_eq_nil_iff] at h2
  have := h2 c (by simpa using hc)
  rw [hw] at this
  cases this

/-- A string containing a non-white character does not trim at the start
to nothing. -/
theorem trimLeft_ne {a : Str} {c : Char} (hc : c ∈ a) (hw : isWhite c = false) :
    trimLeft a ≠ [] := by
  intro h
  rw [trimLeft, List.dropWhile_eq_nil_iff] at h
  have := h c hc
  rw [hw] at this
  cases this

/-- Trimming the start distributes over an append whose left part does
not trim to nothing. -/
theorem trimLeft_app {a : Str} (h : trimLeft a ≠ []) (b : Str) :
    trimLeft (a ++ b) = trimLeft a ++ b :=
  dropWhile_app_ne isWhite h b

/-- Trimming the start keeps the last element. -/
theorem getLast_trimLeft {a : Str} (h : trimLeft a ≠ []) :
    (trimLeft a).getLast? = a.getLast? := by
  have key : a.takeWhile isWhite ++ a.dropWhile isWhite = a :=
    List.takeWhile_append_dropWhile isWhite a
  have h2 : (a.takeWhile isWhite ++ a.dropWhile isWhite).getLast? =
      (a.dropWhile isWhite).getLast? := getLast_app_right _ h
  rw [key] at h2
  exact h2.symm

/-- Full trim of an append whose left part ends in a non-white
character. -/
theorem rustTrim_app {a : Str} {ch : Char} (h1 : a.getLast? = some ch)
    (h2 : isWhite ch = false) (b : Str) :
    rustTrim (a ++ b) = trimLeft a ++ trimEnd b := by
  have hch : ch ∈ a := mem_of_getLast h1
  have hne : trimLeft a ≠ [] := trimLeft_ne hch h2
  have hlast : (trimLeft a).getLast? = some ch := by rw [getLast_trimLeft hne, h1]
  rw [rustTrim, trimLeft_app hne, trimEnd_app_left hlast h2]

/-- A string ending in a non-white character trims to its start trim. -/
theorem rustTrim_fix_last {a : Str} {ch : Char} (h1 : a.getLast? = some ch)
    (h2 : isWhite ch = false) : rustTrim a = trimLeft a := by
  have h3 := rustTrim_app h1 h2 []
  simpa [trimEnd_nil] using h3

/-- The last character after a full trim and after an end trim
coincide. -/
theorem getLast_rustTrim (s : Str) : (rustTrim s).getLast? = (trimEnd s).getLast? := by
  cases hT : trimLeft s with
  | nil =>
    have hall : ∀ x ∈ s, isWhite x = true := by
      rw [trimLeft] at hT
      exact List.dropWhile_eq_nil_iff.mp hT
    have h1 : rustTrim s = [] := by rw [rustTrim, hT]; rfl
    rw [h1, trimEnd_eq_nil hall]
  | cons c t =>
    have hdrop : s.dropWhile isWhite = c :: t := hT
    have hc : isWhite c = false := dropWhile_head hdrop
    have hTe : trimEnd (c :: t) ≠ [] := trimEnd_ne (List.mem_cons_self c t) hc
    have hs : s.takeWhile isWhite ++ (c :: t) = s := by
      rw [← hdrop]
      exact List.takeWhile_append_dropWhile isWhite s
    have e1 : trimEnd s = s.takeWhile isWhite ++ trimEnd (c :: t) := by
      conv_lhs => rw [← hs]
      exact trimEnd_app_right hTe _
    have e2 : rustTrim s = trimEnd (c :: t) := by rw [rustTrim, hT]
    rw [e1, e2, getLast_app_right _ hTe]

/-- Unfolding of the tagged merge step when the accumulated list ends in
an entry of the incoming speaker. -/
theorem mergeStep_concat (pre : List Entry) (last e : Entry)
    (h : last.speaker = e.speaker) :
    mergeStep (pre ++ [last]) e = pre ++
      [⟨last.speaker,
        last.text ++ [' '] ++
          (if (trimEnd last.text).getLast? = some '.'
           then make_uppercase_first e.text
           else make_lowercase_first e.text)⟩] := by
  rw [mergeStep, List.getLast?_concat]
  simp only [h, if_pos, List.dropLast_concat]

/-- Unfolding of the timestamped merge step when the current conversation
has the incoming record's identity. -/
theorem convStep_same (convs : List Conversation) (prev : Conversation)
    (r : RawRecord) (h : prev.name = r.name) :
    convStep (convs, some prev) r =
      (convs, some { prev with
        message := prev.message ++ [' '] ++
          (if (rustTrim prev.message).getLast? = some '.'
           then r.message
           else to_lowercase_first r.message) }) := by
  simp [convStep, h]

/-- C1: for every merge of an incoming record into the current turn, in
both modes, the resulting payload is the previously accumulated payload,
followed by exactly one ASCII space, followed by the (case-adjusted)
incoming fragment — no whitespace on either side is trimmed or added
beyond that single space. -/
theorem claim1_single_space_join :
    (∀ (pre : List Entry) (last e : Entry), last.speaker = e.speaker →
      ∃ frag, mergeStep (pre ++ [last]) e =
          pre ++ [⟨last.speaker, last.text ++ [' '] ++ frag⟩] ∧
        (frag = make_uppercase_first e.text ∨ frag = make_lowercase_first e.text)) ∧
    (∀ (convs : List Conversation) (prev : Conversation) (r : RawRecord),
      prev.name = r.name →
      ∃ frag, convStep (convs, some prev) r =
          (convs, some { prev with message := prev.message ++ [' '] ++ frag }) ∧
        (frag = r.message ∨ frag = to_lowercase_first r.message)) := by
  constructor
  · intro pre last e h
    refine ⟨_, mergeStep_concat pre last e h, ?_⟩
    by_cases hp : (trimEnd last.text).getLast? = some '.'
    · exact Or.inl (by rw [if_pos hp])
    · exact Or.inr (by rw [if_neg hp])
  · intro convs prev r h
    refine ⟨_, convStep_same convs prev r h, ?_⟩
    by_cases hp : (rustTrim prev.message).getLast? = some '.'
    · exact Or.inl (by rw [if_pos hp])
    · exact Or.inr (by rw [if_neg hp])

/-- Witness for C1: a concrete tagged merge with trailing whitespace on
the current payload and leading whitespace on the incoming payload. -/
theorem claim1_single_space_join_witness :
    ∃ frag, mergeStep ([] ++ [(⟨['a'], ['x', ' ']⟩ : Entry)]) ⟨['a'], [' ', 'y']⟩ =
        [] ++ [⟨['a'], ['x', ' '] ++ [' '] ++ frag⟩] ∧
      (frag = make_uppercase_first [' ', 'y'] ∨ frag = make_lowercase_first [' ', 'y']) :=
  claim1_single_space_join.1 [] ⟨['a'], ['x', ' ']⟩ ⟨['a'], [' ', 'y']⟩ rfl

/-- C3: in tagged mode, merging an incoming same-identity record
uppercases the first character of the incoming payload when the current
payload, trimmed at the end, ends with a period, and lowercases it
otherwise; the rest of the incoming payload is unchanged. -/
theorem claim3_tagged_case_rule :
    ∀ (pre : List Entry) (last e : Entry) (c : Char) (rest : Str),
      last.speaker = e.speaker → e.text = c :: rest →
      mergeStep (pre ++ [last]) e = pre ++
        [⟨last.speaker,
          last.text ++ [' '] ++
            (if (trimEnd last.text).getLast? = some '.'
             then charUpperList c ++ rest
             else charLowerList c ++ rest)⟩] := by
  intro pre last e c rest h he
  rw [mergeStep_concat pre last e h, he]
  rfl

/-- Witness for C3: a concrete tagged merge in each direction of the
period rule. -/
theorem claim3_tagged_case_rule_witness :
    mergeStep ([] ++ [(⟨['a'], ['h', 'i', '.']⟩ : Entry)]) ⟨['a'], ['y', 'o']⟩ =
      [] ++ [⟨['a'],
        ['h', 'i', '.'] ++ [' '] ++
          (if (trimEnd ['h', 'i', '.']).getLast? = some '.'
           then charUpperList 'y' ++ ['o']
           else charLowerList 'y' ++ ['o'])⟩] :=
  claim3_tagged_case_rule [] ⟨['a'], ['h', 'i', '.']⟩ ⟨['a'], ['y', 'o']⟩ 'y' ['o'] rfl rfl

/-- C4: in timestamped mode, merging an incoming same-identity record
appends the incoming payload unchanged when the current payload, with
trailing whitespace trimmed, ends with a period, and otherwise lowercases
only its first character (possibly expanding it, the expansion kept
verbatim), the rest untouched.  The code trims both ends before testing,
which has the same last character as trimming only the end. -/
theorem claim4_timestamped_case_rule :
    ∀ (convs : List Conversation) (prev : Conversation) (r : RawRecord)
      (c : Char) (rest : Str),
      prev.name = r.name → r.message = c :: rest →
      convStep (convs, some prev) r =
        (convs, some { prev with
          message := prev.message ++ [' '] ++
            (if (trimEnd prev.message).getLast? = some '.'
             then c :: rest
             else charLowerList c ++ rest) }) := by
  intro convs prev r c rest h hm
  rw [convStep_same convs prev r h, hm, getLast_rustTrim]
  rfl

/-- Witness for C4: a concrete timestamped merge under the period rule. -/
theorem claim4_timestamped_case_rule_witness :
    convStep ([], some ⟨⟨2024, 5, 1, 12, 0, 0⟩, none, ['b'], ['o', 'k', '.', ' ']⟩)
        ⟨⟨2024, 5, 1, 12, 0, 5⟩, ['b'], ['N', 'o']⟩ =
      ([], some { (⟨⟨2024, 5, 1, 12, 0, 0⟩, none, ['b'], ['o', 'k', '.', ' ']⟩ : Conversation) with
        message := ['o', 'k', '.', ' '] ++ [' '] ++
          (if (trimEnd ['o', 'k', '.', ' ']).getLast? = some '.'
           then 'N' :: ['o']
           else charLowerList 'N' ++ ['o']) }) :=
  claim4_timestamped_case_rule [] ⟨⟨2024, 5, 1, 12, 0, 0⟩, none, ['b'], ['o', 'k', '.', ' ']⟩
    ⟨⟨2024, 5, 1, 12, 0, 5⟩, ['b'], ['N', 'o']⟩ 'N' ['o'] rfl rfl

/-- C5: in the tagged extractor a `text` line emits a pair exactly when a
pending speaker exists, and always clears the pending slot; consequently
`speaker: "Alice"` followed by `text: "Hi"` and `text: "There"` yields
exactly the pair (Alice, Hi), the second `text` line being dropped. -/
theorem claim5_text_consumes_pending :
    (∀ (cur : Option Str) (acc : List Entry) (line rest r2 v rem : Str),
      keyTag (rustTrim line) = some (false, rest) →
      rustTrim rest = '"' :: r2 →
      parse_quoted r2 = some (v, rem) →
      procLine (cur, acc) line =
        (none, acc ++ (match cur with | some sp => [⟨sp, v⟩] | none => []))) ∧
    parse_entries (("speaker: \"Alice\"\ntext: \"Hi\"\ntext: \"There\"").data) =
      [⟨("Alice").data, ("Hi").data⟩] := by
  constructor
  · intro cur acc line rest r2 v rem h1 h2 h3
    simp only [procLine, h1, h2, h3]
    cases cur <;> simp
  · decide

/-- Witness for C5: the general clause applied to the concrete second
line of the example, once with a pending speaker and once without. -/
theorem claim5_text_consumes_pending_witness :
    procLine (some (("Alice")).data, []) (("text: \"Hi\"").data) =
      (none, [] ++ (match some (("Alice")).data with
        | some sp => [(⟨sp, ("Hi").data⟩ : Entry)] | none => [])) :=
  claim5_text_consumes_pending.1 (some (("Alice")).data) [] (("text: \"Hi\"").data)
    ((" \"Hi\"").data) (("Hi\"").data) (("Hi").data) [] rfl rfl rfl

/-- C2 counterexample: in tagged mode an empty quoted `text` value
produces an emitted Turn whose payload is the empty string, refuting the
claim for the tagged mode. -/
theorem claim2_counterexample :
    ∃ e ∈ merge_entries (parse_entries (("speaker: \"A\"\ntext: \"\"").data)),
      e.text = [] := by decide

/-- The message delivered by `restMatch` is non-empty. -/
theorem restMatch_ne {s m : Str} (h : restMatch s = some m) : m ≠ [] := by
  unfold restMatch at h
  split at h
  · rename_i c1 c2 rest
    by_cases hc : c1 = ':' ∧ c2 = ' '
    · rw [if_pos hc] at h
      by_cases hm : msgTail rest = []
      · rw [if_pos hm] at h
        cases h
      · rw [if_neg hm] at h
        cases h
        exact hm
    · rw [if_neg hc] at h
      cases h
  · cases h

/-- The message delivered by `nameSplit` is non-empty. -/
theorem nameSplit_msg_ne {s nm m : Str} (h : nameSplit s = some (nm, m)) :
    m ≠ [] := by
  induction s generalizing nm m with
  | nil => simp [nameSplit] at h
  | cons c rest ih =>
    rw [nameSplit] at h
    split_ifs at h
    split at h
    · rename_i msg heq
      cases h
      exact restMatch_ne heq
    · split at h
      · rename_i p heq
        cases h
        exact ih heq
      · cases h

/-- The message delivered by `tryMatchAt` is non-empty. -/
theorem tryMatchAt_msg_ne {s t nm m : Str} (h : tryMatchAt s = some (t, nm, m)) :
    m ≠ [] := by
  unfold tryMatchAt at h
  split at h
  · cases h
  · split at h
    · split at h
      · rename_i p heq
        cases h
        exact nameSplit_msg_ne heq
      · cases h
    · cases h

/-- The message delivered by the regex search is non-empty. -/
theorem searchMatch_msg_ne {s t nm m : Str} (h : searchMatch s = some (t, nm, m)) :
    m ≠ [] := by
  induction s with
  | nil => simp [searchMatch] at h
  | cons c rest ih =>
    rw [searchMatch] at h
    split at h
    · rename_i r heq
      cases h
      exact tryMatchAt_msg_ne heq
    · exact ih h

/-- Every extracted record carries a non-empty message. -/
theorem extractRecords_msg_ne {ls : List Str} {r : RawRecord}
    (h : r ∈ extractRecords ls) : r.message ≠ [] := by
  rw [extractRecords, List.mem_filterMap] at h
  obtain ⟨line, _, hline⟩ := h
  cases hpm : parse_message line with
  | none => simp [hpm] at hline
  | some p =>
    obtain ⟨t, nm, m⟩ := p
    cases hpt : parse_timestamp t with
    | none => simp [hpm, hpt] at hline
    | some ts =>
      simp only [hpm, hpt] at hline
      cases hline
      exact searchMatch_msg_ne hpm

/-- Fold invariant: the merge loop preserves non-emptiness of every
message in the state, and delivers it to every message of the output. -/
theorem build_msgs_ne :
    ∀ (l : List RawRecord) (convs : List Conversation) (cur : Option Conversation),
      (∀ c ∈ convs, c.message ≠ []) →
      (∀ c, cur = some c → c.message ≠ []) →
      (∀ r ∈ l, r.message ≠ []) →
      ∀ c ∈ finishConv (l.foldl convStep (convs, cur)), c.message ≠ [] := by
  intro l
  induction l with
  | nil =>
    intro convs cur h1 h2 _ c hc
    cases cur with
    | none => exact h1 c hc
    | some x =>
      rw [finishConv] at hc
      rcases List.mem_append.mp hc with hl | hr
      · exact h1 c hl
      · rw [List.mem_singleton] at hr
        cases hr
        exact h2 c rfl
  | cons r l ih =>
    intro convs cur h1 h2 h3 c
    rw [List.foldl_cons]
    cases cur with
    | none =>
      simp only [convStep]
      exact ih convs (some ⟨r.ts, none, r.name, r.message⟩) h1
        (fun x hx => by cases hx; exact h3 r (by simp))
        (fun x hx => h3 x (by simp [hx])) c
    | some prev =>
      by_cases hname : prev.name = r.name
      · simp only [convStep, hname, if_pos]
        refine ih convs _ h1 ?_ (fun x hx => h3 x (by simp [hx])) c
        intro x hx
        cases hx
        simp
      · simp only [convStep, hname, if_neg, not_false_iff]
        refine ih _ _ ?_ ?_ (fun x hx => h3 x (by simp [hx])) c
        · intro x hx
          rcases List.mem_append.mp hx with hl | hr
          · exact h1 x hl
          · rw [List.mem_singleton] at hr
            cases hr
            exact h2 prev rfl
        · intro x hx
          cases hx
          exact h3 r (by simp)

/-- C2 (amended): in timestamped mode, every emitted Turn has a non-empty
payload. -/
theorem claim2_timestamped_payload_nonempty :
    ∀ (ls : List Str) (c : Conversation), c ∈ parse_conversations ls →
      c.message ≠ [] := by
  intro ls c hc
  exact build_msgs_ne (extractRecords ls) [] none (by simp) (by simp)
    (fun r hr => extractRecords_msg_ne hr) c hc

/-- Witness for C2: a concrete timestamped run whose single emitted turn
has a non-empty payload. -/
theorem claim2_timestamped_payload_nonempty_witness :
    (⟨⟨2024, 5, 1, 12, 0, 0⟩, none, ("Alice").data, ("Hello.").data⟩ : Conversation) ∈
        parse_conversations [("2024-05-01T12:00:00 - Alice: Hello.").data] ∧
      (("Hello.").data : Str) ≠ [] :=
  ⟨by decide,
   claim2_timestamped_payload_nonempty [("2024-05-01T12:00:00 - Alice: Hello.").data]
     ⟨⟨2024, 5, 1, 12, 0, 0⟩, none, ("Alice").data, ("Hello.").data⟩ (by decide)⟩

/-- C9 counterexample: in tagged mode, an input with zero extracted turns
still gets table text (the header and separator rows) written to standard
output, and no informational condition is reported. -/
theorem claim9_counterexample :
    merge_entries (parse_entries []) = [] ∧
      run_tagged [] = (("| Speaker | Text |\n|---------|------|\n")).data ∧
      run_tagged [] ≠ [] := by
  refine ⟨rfl, rfl, ?_⟩
  decide

/-- C9 (amended): in timestamped mode, an input from which zero turns are
extracted reports the informational condition and writes no table to
standard output. -/
theorem claim9_timestamped_empty_no_table :
    ∀ ls : List Str, parse_conversations ls = [] →
      run_timestamped ls = ⟨none, true⟩ := by
  intro ls h
  simp [run_timestamped, h]

/-- Witness for C9: the empty input extracts zero turns and the run
reports without a table. -/
theorem claim9_timestamped_empty_no_table_witness :
    parse_conversations ([] : List Str) = [] ∧
      run_timestamped [] = ⟨none, true⟩ :=
  ⟨rfl, claim9_timestamped_empty_no_table [] rfl⟩

/-- Number of records that open a new turn in a run of identities, given
the identity of the currently open turn. -/
def countNew (prev : Str) : List Str → Nat
  | [] => 0
  | s :: rest => (if s = prev then 0 else 1) + countNew s rest

/-- Tests that no identity in the list equals its predecessor, starting
from the given identity. -/
def distinctRun (prev : Str) : List Str → Bool
  | [] => true
  | s :: rest => if s = prev then false else distinctRun s rest

/-- Tests that no two consecutive identities in the list coincide. -/
def noConsecDup : List Str → Bool
  | [] => true
  | s :: rest => distinctRun s rest

/-- The number of turn-opening records is at most the number of
records. -/
theorem countNew_le (prev : Str) (l : List Str) : countNew prev l ≤ l.length := by
  induction l generalizing prev with
  | nil => simp [countNew]
  | cons s rest ih =>
    simp only [countNew, List.length_cons]
    have h := ih s
    split_ifs <;> omega

/-- Every record opens a new turn exactly when no identity repeats its
predecessor. -/
theorem countNew_eq_iff (prev : Str) (l : List Str) :
    countNew prev l = l.length ↔ distinctRun prev l = true := by
  induction l generalizing prev with
  | nil => simp [countNew, distinctRun]
  | cons s rest ih =>
    simp only [countNew, distinctRun, List.length_cons]
    split_ifs with hs
    · have h := countNew_le s rest
      constructor
      · intro hh
        exfalso
        omega
      · intro hh
        cases hh
    · rw [← ih s]
      omega

/-- The tagged merge step pushes the incoming entry when the accumulated
list ends in an entry of a different speaker. -/
theorem mergeStep_concat_ne (pre : List Entry) (last e : Entry)
    (h : ¬last.speaker = e.speaker) :
    mergeStep (pre ++ [last]) e = (pre ++ [last]) ++ [e] := by
  rw [mergeStep, List.getLast?_concat]
  simp [h]

/-- Length of the tagged merge fold in terms of the turn-opening count. -/
theorem merge_foldl_len :
    ∀ (l : List Entry) (pre : List Entry) (last : Entry),
      (l.foldl mergeStep (pre ++ [last])).length =
        pre.length + 1 + countNew last.speaker (l.map Entry.speaker) := by
  intro l
  induction l with
  | nil =>
    intro pre last
    simp [countNew]
  | cons e l ih =>
    intro pre last
    rw [List.foldl_cons]
    by_cases h : last.speaker = e.speaker
    · rw [mergeStep_concat pre last e h, ih]
      simp [countNew, h]
    · rw [mergeStep_concat_ne pre last e h, ih]
      have hne : ¬e.speaker = last.speaker := fun hh => h hh.symm
      simp only [List.map_cons, countNew, if_neg hne, List.length_append,
        List.length_cons, List.length_nil]
      omega

/-- The timestamped merge step flushes the current conversation when the
incoming record has a different identity. -/
theorem convStep_ne (convs : List Conversation) (prev : Conversation)
    (r : RawRecord) (h : ¬prev.name = r.name) :
    convStep (convs, some prev) r =
      (convs ++ [{ prev with end_time := some r.ts }],
       some ⟨r.ts, none, r.name, r.message⟩) := by
  simp [convStep, h]

/-- Length of the timestamped merge fold in terms of the turn-opening
count. -/
theorem conv_foldl_len :
    ∀ (l : List RawRecord) (convs : List Conversation) (cur : Conversation),
      (finishConv (l.foldl convStep (convs, some cur))).length =
        convs.length + 1 + countNew cur.name (l.map RawRecord.name) := by
  intro l
  induction l with
  | nil =>
    intro convs cur
    simp [finishConv, countNew]
  | cons r l ih =>
    intro convs cur
    rw [List.foldl_cons]
    by_cases h : cur.name = r.name
    · rw [convStep_same convs cur r h, ih]
      simp [countNew, h]
    · rw [convStep_ne convs cur r h, ih]
      have hne : ¬r.name = cur.name := fun hh => h hh.symm
      simp only [List.map_cons, countNew, if_neg hne, List.length_append,
        List.length_cons, List.length_nil]
      omega

/-- C6: in both modes, the number of emitted Turns is at most the number
of records fed to the turn builder, with equality exactly when no two
consecutive records share an identity. -/
theorem claim6_turn_count :
    ∀ (es : List Entry) (rs : List RawRecord),
      ((merge_entries es).length ≤ es.length ∧
        ((merge_entries es).length = es.length ↔
          noConsecDup (es.map Entry.speaker) = true)) ∧
      ((buildConversations rs).length ≤ rs.length ∧
        ((buildConversations rs).length = rs.length ↔
          noConsecDup (rs.map RawRecord.name) = true)) := by
  intro es rs
  constructor
  · cases es with
    | nil =>
      constructor
      · exact Nat.le_refl 0
      · simp [merge_entries, noConsecDup]
    | cons e rest =>
      have hlen : (merge_entries (e :: rest)).length =
          1 + countNew e.speaker (rest.map Entry.speaker) := by
        rw [merge_entries, List.foldl_cons]
        have h0 : mergeStep [] e = [] ++ [e] := rfl
        rw [h0, merge_foldl_len rest [] e]
        simp
      have hle := countNew_le e.speaker (rest.map Entry.speaker)
      rw [List.length_map] at hle
      constructor
      · rw [hlen, List.length_cons]
        omega
      · rw [hlen, List.length_cons, List.map_cons]
        show _ ↔ distinctRun e.speaker (rest.map Entry.speaker) = true
        rw [← countNew_eq_iff, List.length_map]
        omega
  · cases rs with
    | nil =>
      constructor
      · exact Nat.le_refl 0
      · simp [buildConversations, finishConv, noConsecDup]
    | cons r rest =>
      have hlen : (buildConversations (r :: rest)).length =
          1 + countNew r.name (rest.map RawRecord.name) := by
        rw [buildConversations, List.foldl_cons]
        have h0 : convStep ([], none) r = ([], some ⟨r.ts, none, r.name, r.message⟩) := rfl
        rw [h0, conv_foldl_len rest [] ⟨r.ts, none, r.name, r.message⟩]
        simp
      have hle := countNew_le r.name (rest.map RawRecord.name)
      rw [List.length_map] at hle
      constructor
      · rw [hlen, List.length_cons]
        omega
      · rw [hlen, List.length_cons, List.map_cons]
        show _ ↔ distinctRun r.name (rest.map RawRecord.name) = true
        rw [← countNew_eq_iff, List.length_map]
        omega

/-- Modelled from the spec: the escape mapping of the quoted-string
scanner — the four recognized escapes map to quote, newline, tab and
backslash; any other backslash-prefixed character is preserved verbatim
including the backslash. -/
def escChar (e : Char) : Str :=
  if e = '"' then ['"']
  else if e = 'n' then ['\n']
  else if e = 't' then ['\t']
  else if e = '\\' then ['\\']
  else ['\\', e]

/-- Modelled from the spec: split the input at the first unescaped double
quote, returning the raw (still escaped) content before it and the text
starting immediately after it; fail when the input ends first. -/
def splitAtClose : Str → Option (Str × Str)
  | [] => none
  | c :: rest =>
    if c = '\\' then
      match rest with
      | [] => none
      | e :: r2 =>
        match splitAtClose r2 with
        | none => none
        | some (raw, rem) => some (c :: e :: raw, rem)
    else if c = '"' then some ([], rest)
    else
      match splitAtClose rest with
      | none => none
      | some (raw, rem) => some (c :: raw, rem)

/-- Modelled from the spec: map the recognized escapes of a raw quoted
content to their characters, keeping everything else. -/
def unescape : Str → Str
  | [] => []
  | c :: rest =>
    if c = '\\' then
      match rest with
      | [] => [c]
      | e :: r2 => escChar e ++ unescape r2
    else c :: unescape rest

/-- Fuel-indexed equivalence of the scanner with the split-then-unescape
description. -/
theorem parse_quoted_split_aux :
    ∀ (n : Nat) (s : Str), s.length ≤ n →
      parse_quoted s =
        Option.map (fun p => (unescape p.1, p.2)) (splitAtClose s) := by
  intro n
  induction n with
  | zero =>
    intro s hs
    have h0 : s = [] := List.eq_nil_of_length_eq_zero (Nat.le_zero.mp hs)
    subst h0
    rfl
  | succ n ih =>
    intro s hs
    match s with
    | [] => rfl
    | c :: rest =>
      rw [parse_quoted.eq_def, splitAtClose.eq_def]
      by_cases hc : c = '\\'
      · subst hc
        match rest with
        | [] => simp
        | e :: r2 =>
          have hr : r2.length ≤ n := by
            simp only [List.length_cons] at hs
            omega
          have ih2 := ih r2 hr
          cases hsp : splitAtClose r2 with
          | none =>
            have hp : parse_quoted r2 = none := by rw [ih2, hsp]; rfl
            simp [hp, hsp]
          | some p =>
            obtain ⟨raw, rem⟩ := p
            have hp : parse_quoted r2 = some (unescape raw, rem) := by
              rw [ih2, hsp]
              rfl
            have hu : unescape ('\\' :: e :: raw) = escChar e ++ unescape raw := by
              rw [unescape.eq_def]
              simp
            simp [hp, hsp, hu, escChar]
      · by_cases hq : c = '"'
        · subst hq
          simp [unescape]
        · have hr : rest.length ≤ n := by
            simp only [List.length_cons] at hs
            omega
          have ih2 := ih rest hr
          cases hsp : splitAtClose rest with
          | none =>
            have hp : parse_quoted rest = none := by rw [ih2, hsp]; rfl
            simp [hp, hsp, hc, hq]
          | some p =>
            obtain ⟨raw, rem⟩ := p
            have hp : parse_quoted rest = some (unescape raw, rem) := by
              rw [ih2, hsp]
              rfl
            have hu : unescape (c :: raw) = c :: unescape raw := by
              rw [unescape.eq_def]
              simp [hc]
            simp [hp, hsp, hc, hq, hu]

/-- The scanner equals split-at-close followed by unescaping. -/
theorem parse_quoted_eq_split (s : Str) :
    parse_quoted s =
      Option.map (fun p => (unescape p.1, p.2)) (splitAtClose s) :=
  parse_quoted_split_aux s.length s (Nat.le_refl _)

/-- C7: the quoted-string scanner returns, whenever an unescaped closing
quote occurs, the content with the escape mapping applied (the four
recognized escapes mapped, any other backslash pair preserved verbatim)
paired with the text starting right after the closing quote; when the
input ends before an unescaped closing quote it returns no result — it
is a total function, so it cannot panic. -/
theorem claim7_quoted_scanner :
    ∀ s : Str, parse_quoted s =
      Option.map (fun p => (unescape p.1, p.2)) (splitAtClose s) :=
  fun s => parse_quoted_eq_split s

/-- Chaining property of an output sequence: every turn except the last
carries an `end_time` equal to the `start_time` of the turn that follows
it, and the last turn carries no `end_time`. -/
def endsLinked : List Conversation → Prop
  | [] => True
  | [c] => c.end_time = none
  | c :: d :: rest => c.end_time = some d.start_time ∧ endsLinked (d :: rest)

/-- Replacing the final element by one with the same start and end times
preserves the chain. -/
theorem endsLinked_replace :
    ∀ (xs : List Conversation) {c c2 : Conversation},
      endsLinked (xs ++ [c]) → c2.start_time = c.start_time →
      c2.end_time = c.end_time → endsLinked (xs ++ [c2]) := by
  intro xs
  induction xs with
  | nil =>
    intro c c2 h hst het
    simp only [List.nil_append, endsLinked] at h ⊢
    rw [het, h]
  | cons x xs ih =>
    intro c c2 h hst het
    cases xs with
    | nil =>
      simp only [List.cons_append, List.nil_append, endsLinked] at h ⊢
      exact ⟨by rw [hst]; exact h.1, by rw [het]; exact h.2⟩
    | cons y ys =>
      simp only [List.cons_append, endsLinked] at h ⊢
      exact ⟨h.1, ih h.2 hst het⟩

/-- Extending the chain by flushing the last element with the start time
of a fresh open turn preserves the chain. -/
theorem endsLinked_flush :
    ∀ (xs : List Conversation) {c : Conversation} (c2 d : Conversation),
      endsLinked (xs ++ [c]) → c2.start_time = c.start_time →
      c2.end_time = some d.start_time → d.end_time = none →
      endsLinked (xs ++ [c2, d]) := by
  intro xs
  induction xs with
  | nil =>
    intro c c2 d _ hst het hd
    simp only [List.nil_append, endsLinked]
    exact ⟨het, hd⟩
  | cons x xs ih =>
    intro c c2 d h hst het hd
    cases xs with
    | nil =>
      simp only [List.cons_append, List.nil_append, endsLinked] at h ⊢
      exact ⟨by rw [hst]; exact h.1, het, hd⟩
    | cons y ys =>
      simp only [List.cons_append, endsLinked] at h ⊢
      exact ⟨h.1, ih c2 d h.2 hst het hd⟩

/-- The timestamped merge fold preserves the chain of the emitted turns
followed by the open turn. -/
theorem conv_fold_linked :
    ∀ (l : List RawRecord) (convs : List Conversation) (cur : Conversation),
      endsLinked (convs ++ [cur]) →
      endsLinked (finishConv (l.foldl convStep (convs, some cur))) := by
  intro l
  induction l with
  | nil =>
    intro convs cur h
    simpa [finishConv] using h
  | cons r l ih =>
    intro convs cur h
    rw [List.foldl_cons]
    by_cases hn : cur.name = r.name
    · rw [convStep_same convs cur r hn]
      exact ih convs _ (endsLinked_replace convs h rfl rfl)
    · rw [convStep_ne convs cur r hn]
      apply ih
      have h2 := endsLinked_flush convs { cur with end_time := some r.ts }
        ⟨r.ts, none, r.name, r.message⟩ h rfl rfl rfl
      simpa [List.append_assoc] using h2

/-- C8: in timestamped mode every emitted turn except the last carries an
`end_time` equal to the `start_time` of the turn that follows it in the
output (the timestamp of the record that flushed it), and the last
emitted turn carries no `end_time`.  Every turn's `start_time` is set by
construction (the field is not optional). -/
theorem claim8_end_time_links :
    ∀ ls : List Str, endsLinked (parse_conversations ls) := by
  intro ls
  rw [parse_conversations, buildConversations]
  cases hrs : extractRecords ls with
  | nil => simp [finishConv, endsLinked]
  | cons r rs =>
    rw [List.foldl_cons]
    have h0 : convStep ([], none) r = ([], some ⟨r.ts, none, r.name, r.message⟩) := rfl
    rw [h0]
    apply conv_fold_linked
    simp [endsLinked]

/-- Trimming the end twice is trimming it once. -/
theorem trimEnd_idem (s : Str) : trimEnd (trimEnd s) = trimEnd s := by
  rw [trimEnd, trimEnd, List.reverse_reverse, dropWhile_idem]

/-- Stripping a tag off the tag followed by anything succeeds with that
remainder. -/
theorem stripTag_self : ∀ (t r : Str), stripTag t (t ++ r) = some r := by
  intro t
  induction t with
  | nil => intro r; rfl
  | cons c ts ih => intro r; simp [stripTag, ih]

/-- A successful strip decomposes the input as tag and remainder. -/
theorem stripTag_sound : ∀ {t s r : Str}, stripTag t s = some r → s = t ++ r := by
  intro t
  induction t with
  | nil =>
    intro s r h
    cases h
    rfl
  | cons c ts ih =>
    intro s r h
    cases s with
    | nil => cases h
    | cons x xs =>
      rw [stripTag] at h
      split_ifs at h with hcx
      subst hcx
      rw [List.cons_append, ih h]

/-- A successful key detection decomposes the trimmed line as a non-empty
tag and the remainder. -/
theorem keyTag_sound {s : Str} {k : Bool} {rest0 : Str}
    (h : keyTag s = some (k, rest0)) : ∃ t1 : Str, t1 ≠ [] ∧ s = t1 ++ rest0 := by
  rw [keyTag] at h
  cases h1 : stripTag (("speaker:").data) s with
  | some r1 =>
    rw [h1] at h
    cases h
    exact ⟨_, by decide, stripTag_sound h1⟩
  | none =>
    rw [h1] at h
    cases h2 : stripTag (("\"speaker\":").data) s with
    | some r2 =>
      rw [h2] at h
      cases h
      exact ⟨_, by decide, stripTag_sound h2⟩
    | none =>
      rw [h2] at h
      cases h3 : stripTag (("text:").data) s with
      | some r3 =>
        rw [h3] at h
        cases h
        exact ⟨_, by decide, stripTag_sound h3⟩
      | none =>
        rw [h3] at h
        cases h4 : stripTag (("\"text\":").data) s with
        | some r4 =>
          rw [h4] at h
          cases h
          exact ⟨_, by decide, stripTag_sound h4⟩
        | none =>
          rw [h4] at h
          cases h

/-- Appending text to a recognized key line keeps the recognized key and
appends the text to the remainder (the four key checks discriminate
within the first two characters, so the outcome of the cascade does not
change). -/
theorem keyTag_app {s : Str} {k : Bool} {rest0 : Str}
    (h : keyTag s = some (k, rest0)) (u : Str) :
    keyTag (s ++ u) = some (k, rest0 ++ u) := by
  rw [keyTag] at h
  cases h1 : stripTag (("speaker:").data) s with
  | some r1 =>
    rw [h1] at h
    cases h
    have hs : s = (("speaker:").data) ++ rest0 := stripTag_sound h1
    rw [keyTag, hs, List.append_assoc]
    simp only [stripTag_self]
  | none =>
    rw [h1] at h
    cases h2 : stripTag (("\"speaker\":").data) s with
    | some r2 =>
      rw [h2] at h
      cases h
      have hs : s = (("\"speaker\":").data) ++ rest0 := stripTag_sound h2
      have e1 : stripTag (("speaker:").data)
          ((("\"speaker\":").data) ++ (rest0 ++ u)) = none := rfl
      rw [keyTag, hs, List.append_assoc]
      simp only [e1, stripTag_self]
    | none =>
      rw [h2] at h
      cases h3 : stripTag (("text:").data) s with
      | some r3 =>
        rw [h3] at h
        cases h
        have hs : s = (("text:").data) ++ rest0 := stripTag_sound h3
        have e1 : stripTag (("speaker:").data)
            ((("text:").data) ++ (rest0 ++ u)) = none := rfl
        have e2 : stripTag (("\"speaker\":").data)
            ((("text:").data) ++ (rest0 ++ u)) = none := rfl
        rw [keyTag, hs, List.append_assoc]
        simp only [e1, e2, stripTag_self]
      | none =>
        rw [h3] at h
        cases h4 : stripTag (("\"text\":").data) s with
        | some r4 =>
          rw [h4] at h
          cases h
          have hs : s = (("\"text\":").data) ++ rest0 := stripTag_sound h4
          have e1 : stripTag (("speaker:").data)
              ((("\"text\":").data) ++ (rest0 ++ u)) = none := rfl
          have e2 : stripTag (("\"speaker\":").data)
              ((("\"text\":").data) ++ (rest0 ++ u)) = none := rfl
          have e3 : stripTag (("text:").data)
              ((("\"text\":").data) ++ (rest0 ++ u)) = none := rfl
          rw [keyTag, hs, List.append_assoc]
          simp only [e1, e2, e3, stripTag_self]
        | none =>
          rw [h4] at h
          cases h

/-- Unfolding: a quote right away closes with empty content. -/
theorem splitAtClose_quote (rest : Str) : splitAtClose ('"' :: rest) = some ([], rest) := by
  match rest with
  | [] => rfl
  | e :: r2 => rfl

/-- Unfolding: a backslash consumes the next character and recurses. -/
theorem splitAtClose_bs (e : Char) (r2 : Str) :
    splitAtClose ('\\' :: e :: r2) =
      match splitAtClose r2 with
      | none => none
      | some (raw, rem) => some ('\\' :: e :: raw, rem) := rfl

/-- Unfolding: an ordinary character is copied and the scan recurses. -/
theorem splitAtClose_other {c : Char} (hb : ¬c = '\\') (hq : ¬c = '"') (rest : Str) :
    splitAtClose (c :: rest) =
      match splitAtClose rest with
      | none => none
      | some (raw, rem) => some (c :: raw, rem) := by
  match rest with
  | [] => simp [splitAtClose, hb, hq]
  | e :: r2 =>
    show (if c = '\\' then _ else if c = '"' then some ([], e :: r2) else _) = _
    rw [if_neg hb, if_neg hq]

/-- Fuel-indexed: appending text after a successfully closed quote only
extends the returned remainder. -/
theorem splitAtClose_app_aux :
    ∀ (n : Nat) (s : Str), s.length ≤ n → ∀ (raw rem u : Str),
      splitAtClose s = some (raw, rem) →
      splitAtClose (s ++ u) = some (raw, rem ++ u) := by
  intro n
  induction n with
  | zero =>
    intro s hs raw rem u h
    have h0 : s = [] := List.eq_nil_of_length_eq_zero (Nat.le_zero.mp hs)
    subst h0
    cases h
  | succ n ih =>
    intro s hs raw rem u h
    match s with
    | [] => cases h
    | c :: rest =>
      rw [List.cons_append]
      by_cases hb : c = '\\'
      · subst hb
        match rest with
        | [] =>
          rw [show splitAtClose ['\\'] = none from rfl] at h
          cases h
        | e :: r2 =>
          rw [splitAtClose_bs] at h
          rw [List.cons_append, splitAtClose_bs]
          cases hsp : splitAtClose r2 with
          | none =>
            rw [hsp] at h
            cases h
          | some p =>
            obtain ⟨raw2, rem2⟩ := p
            rw [hsp] at h
            cases h
            have hr : r2.length ≤ n := by
              simp only [List.length_cons] at hs
              omega
            rw [ih r2 hr raw2 rem u hsp]
      · by_cases hq : c = '"'
        · subst hq
          rw [splitAtClose_quote] at h
          cases h
          rw [splitAtClose_quote]
        · rw [splitAtClose_other hb hq] at h
          rw [splitAtClose_other hb hq]
          cases hsp : splitAtClose rest with
          | none =>
            rw [hsp] at h
            cases h
          | some p =>
            obtain ⟨raw2, rem2⟩ := p
            rw [hsp] at h
            cases h
            have hr : rest.length ≤ n := by
              simp only [List.length_cons] at hs
              omega
            rw [ih rest hr raw2 rem u hsp]

/-- Appending text after a successfully closed quote only extends the
returned remainder of the scanner. -/
theorem parse_quoted_app {s v rem : Str} (h : parse_quoted s = some (v, rem))
    (u : Str) : parse_quoted (s ++ u) = some (v, rem ++ u) := by
  rw [parse_quoted_eq_split] at h
  cases hsp : splitAtClose s with
  | none => rw [hsp] at h; cases h
  | some p =>
    obtain ⟨raw, rem2⟩ := p
    rw [hsp] at h
    cases h
    rw [parse_quoted_eq_split,
      splitAtClose_app_aux s.length s (Nat.le_refl _) raw rem2 u hsp]
    rfl

/-- On a recognized key line ending exactly at the closing quote of its
value, the per-line extractor action ignores everything appended after
that quote. -/
theorem procLine_tail (st : Option Str × List Entry) (core t : Str) (k : Bool)
    (rest0 r2 v : Str)
    (hlast : core.getLast? = some '"')
    (hkey : keyTag (trimLeft core) = some (k, rest0))
    (hrest : rustTrim rest0 = '"' :: r2)
    (hpq : parse_quoted r2 = some (v, [])) :
    procLine st (core ++ t) =
      (if k then (some v, st.2)
       else
         match st.1 with
         | some sp => (none, st.2 ++ [⟨sp, v⟩])
         | none => (none, st.2)) := by
  have hqw : isWhite '"' = false := rfl
  have h1 : rustTrim (core ++ t) = trimLeft core ++ trimEnd t :=
    rustTrim_app hlast hqw t
  have hkey2 : keyTag (trimLeft core ++ trimEnd t) =
      some (k, rest0 ++ trimEnd t) := keyTag_app hkey _
  have hr0ne : rest0 ≠ [] := by
    intro hh
    rw [hh] at hrest
    have hz : rustTrim ([] : Str) = [] := rfl
    rw [hz] at hrest
    cases hrest
  have htlne : trimLeft core ≠ [] := by
    intro hh
    rw [hh] at hkey
    have hz : keyTag ([] : Str) = none := rfl
    rw [hz] at hkey
    cases hkey
  obtain ⟨t1, ht1, hdec⟩ := keyTag_sound hkey
  have hlr0 : rest0.getLast? = some '"' := by
    have e1 : (t1 ++ rest0).getLast? = rest0.getLast? := getLast_app_right t1 hr0ne
    rw [← hdec] at e1
    rw [← e1, getLast_trimLeft htlne, hlast]
  have h2 : rustTrim (rest0 ++ trimEnd t) = trimLeft rest0 ++ trimEnd (trimEnd t) :=
    rustTrim_app hlr0 hqw _
  have h3 : trimLeft rest0 = '"' :: r2 := by
    rw [← rustTrim_fix_last hlr0 hqw, hrest]
  have h5 : rustTrim (rest0 ++ trimEnd t) = '"' :: (r2 ++ trimEnd t) := by
    rw [h2, h3, trimEnd_idem, List.cons_append]
  have h6 : parse_quoted (r2 ++ trimEnd t) = some (v, trimEnd t) := by
    have h7 := parse_quoted_app hpq (trimEnd t)
    simpa using h7
  simp only [procLine, h1, hkey2, h5, h6]

/-- C10: in the tagged extractor, the characters of a recognized key line
after the properly terminated quoted value have no effect: the per-line
action coincides for any two tails, and two concrete inputs differing
only in such trailing characters (a trailing comma and further junk)
yield identical entry sequences. -/
theorem claim10_trailing_after_close_ignored :
    (∀ (st : Option Str × List Entry) (core t1 t2 : Str) (k : Bool)
       (rest0 r2 v : Str),
      core.getLast? = some '"' →
      keyTag (trimLeft core) = some (k, rest0) →
      rustTrim rest0 = '"' :: r2 →
      parse_quoted r2 = some (v, []) →
      procLine st (core ++ t1) = procLine st (core ++ t2)) ∧
    parse_entries (("speaker: \"Alice\",\ntext: \"Hi\", 42").data) =
      parse_entries (("speaker: \"Alice\"\ntext: \"Hi\"").data) := by
  constructor
  · intro st core t1 t2 k rest0 r2 v h1 h2 h3 h4
    rw [procLine_tail st core t1 k rest0 r2 v h1 h2 h3 h4,
      procLine_tail st core t2 k rest0 r2 v h1 h2 h3 h4]
  · decide

/-- Witness for C10: the general clause applied to a concrete speaker
line with a trailing comma versus no tail. -/
theorem claim10_trailing_after_close_ignored_witness :
    procLine (none, []) ((("speaker: \"Bob\"").data) ++ ((",").data)) =
      procLine (none, []) ((("speaker: \"Bob\"").data) ++ []) :=
  claim10_trailing_after_close_ignored.1 (none, []) (("speaker: \"Bob\"").data)
    ((",").data) [] true ((" \"Bob\"").data) (("Bob\"").data) (("Bob").data)
    (by decide) (by decide) (by decide) (by decide)
